import Mathlib

/-
Verification of the lightLDA trainer core: the barrier-synchronized
training-iteration protocol (src/trainer.cpp), the table configuration and
cold-start initialization (src/lightlda.cpp), and the alias-table build and
proposal interface (src/alias_table.h).

Shallow embedding conventions:
  * the straight-line body of Trainer::TrainIteration executed by one thread
    is embedded as the list of its externally visible calls (an Event trace);
  * loops over pointers stepping by the thread count become rrList, the list
    of visited indices;
  * barrier synchronization is modelled by BarrierSchedule, a timestamp
    assignment constrained by program order and by the happens-before edges a
    barrier creates;
  * machine integers are ℕ / ℤ (no arithmetic in the embedded code paths can
    overflow 32/64-bit ranges for the quantities involved);
  * the bodies of AliasTable::Build and AliasTable::Propose live in
    alias_table.cpp, which is not part of the sources; those two operations
    are modelled from the specification text and marked as such.
-/

set_option linter.unusedVariables false

namespace LightLDA

/-- Indices visited by a loop of the form
    for (x = p; x < e; x += T), as used for the word pointer loop
    (trainer.cpp lines 61-65) and the document loop (trainer.cpp line 94). -/
def rrList (e T p : ℕ) : List ℕ :=
  if h : 0 < T ∧ p < e then p :: rrList e T (p + T) else []
termination_by e - p
decreasing_by omega

/-- Externally visible calls made by one thread running
    Trainer::TrainIteration (trainer.cpp lines 37-139).
    build w is alias_->Build(w, model_); the shared dense smoothing slot is
    built by the call build (-1). -/
inductive Event where
  | initIndex : Event
  | barrier : Event
  | build : ℤ → Event
  | initAsymAlpha : Event
  | sampleDoc : ℕ → Event
  | enterEval : Event
  | clear : Event
deriving DecidableEq

/-- The Config:: values read by Trainer::TrainIteration. -/
structure TrainConfig where
  num_iterations : ℕ
  asymmetric_alpha : ℤ
deriving DecidableEq

/-- Barrier calls made inside Trainer::Evaluate (trainer.cpp lines 141-192):
    the Wait at line 161 runs only when slice == 0 (short-circuit of the
    condition slice == 0 && barrier_->Wait()), the Wait at line 178 only when
    block == 0, and the Wait at line 191 always. enterEval marks the entry
    into Evaluate. -/
def evalTrace (block slice : ℕ) : List Event :=
  Event.enterEval ::
    ((if slice = 0 then [Event.barrier] else []) ++
     (if block = 0 then [Event.barrier] else []) ++
     [Event.barrier])

/-- Calls before the first barrier wait: only thread 0 installs the slice's
    alias-table index (trainer.cpp line 59). -/
def preSeg (id : ℕ) : List Event :=
  if id = 0 then [Event.initIndex] else []

/-- Calls between the two barrier waits (trainer.cpp lines 61-83): every
    thread builds its round-robin share of the slice's word range; thread 0
    additionally builds the shared dense slot via Build(-1) and, when
    Config::asymmetric_alpha >= 0, calls InitAsymmetricAlpha. -/
def midSeg (cfg : TrainConfig) (id T : ℕ) (words : List ℤ) : List Event :=
  (rrList words.length T id).map (fun p => Event.build (words.getD p 0)) ++
  (if id = 0 then [Event.build (-1)] else []) ++
  (if id = 0 ∧ 0 ≤ cfg.asymmetric_alpha then [Event.initAsymAlpha] else [])

/-- Calls after the second barrier wait (trainer.cpp lines 94-138): sampling
    of the thread's round-robin share of documents, then Evaluate when
    iter % 2 == 0, then AliasTable::Clear when iter is the final iteration. -/
def postSeg (cfg : TrainConfig) (id T block slice iter numDocs : ℕ) : List Event :=
  (rrList numDocs T id).map Event.sampleDoc ++
  (if iter % 2 = 0 then evalTrace block slice else []) ++
  (if iter = cfg.num_iterations - 1 then [Event.clear] else [])

/-- The full call trace of one thread through Trainer::TrainIteration. -/
def trainIterTrace (cfg : TrainConfig) (id T block slice iter : ℕ)
    (words : List ℤ) (numDocs : ℕ) : List Event :=
  preSeg id ++ [Event.barrier] ++ midSeg cfg id T words ++ [Event.barrier] ++
    postSeg cfg id T block slice iter numDocs

/-- Number of barrier waits a thread has performed before reaching position p
    of its trace. -/
def rnd (t : List Event) (p : ℕ) : ℕ := (t.take p).count Event.barrier

/-- A barrier-consistent execution of the per-thread traces: timestamps are
    strictly increasing along each thread, and an event that lies at most k
    barriers into one thread's trace happens before every event that lies
    strictly more than k barriers into any thread's trace (a thread passes
    its (k+1)-th barrier only after all threads have arrived at it). -/
structure BarrierSchedule (tr : ℕ → List Event) (T : ℕ) where
  time : ℕ → ℕ → ℕ
  mono : ∀ i p q, i < T → p < q → q < (tr i).length → time i p < time i q
  sync : ∀ i j p q, i < T → j < T → p < (tr i).length → q < (tr j).length →
    rnd (tr i) (p + 1) < rnd (tr j) q → time i p < time j q

/-- Per-thread document-likelihood accumulation in Trainer::Evaluate
    (trainer.cpp lines 150-156): the loop guard doc_id < data.Size() &&
    slice == 0 makes the body run only when slice == 0. -/
def threadDocLLH (slice numDocs id T : ℕ) (docLLH : ℕ → ℚ) : ℚ :=
  if slice = 0 then ((rrList numDocs T id).map docLLH).sum else 0

/-- Per-thread word-likelihood accumulation in Trainer::Evaluate
    (trainer.cpp lines 168-173): the loop guard makes the body run only when
    block == 0. -/
def threadWordLLH (block : ℕ) (words : List ℤ) (id T : ℕ) (wordLLH : ℤ → ℚ) : ℚ :=
  if block = 0 then
    ((rrList words.length T id).map (fun p => wordLLH (words.getD p 0))).sum
  else 0

/-- Value of the shared accumulator after every thread has added its partial
    sum under the mutex (trainer.cpp lines 157-160 and 174-177). -/
def mergedLLH (T : ℕ) (contrib : ℕ → ℚ) : ℚ := ((List.range T).map contrib).sum

/-- What thread id logs for the document likelihood (trainer.cpp lines
    161-166): the accumulated total, exactly when slice == 0 and its
    barrier Wait() returned true. -/
def docLogBy (slice : ℕ) (wait : ℕ → Bool) (id : ℕ) (total : ℚ) : Option ℚ :=
  if slice = 0 ∧ wait id then some total else none

/-- Value of the doc_llh_ accumulator after the logging step (trainer.cpp
    line 165): reset to zero by the logging thread when slice == 0. -/
def docLLHFinal (slice : ℕ) (total : ℚ) : ℚ := if slice = 0 then 0 else total

/-- What thread id logs for the word likelihood (trainer.cpp lines 178-182). -/
def wordLogBy (block : ℕ) (wait : ℕ → Bool) (id : ℕ) (total : ℚ) : Option ℚ :=
  if block = 0 ∧ wait id then some total else none

/-- Value of the word_llh_ accumulator after the logging step (trainer.cpp
    line 181). -/
def wordLLHFinal (block : ℕ) (total : ℚ) : ℚ := if block = 0 then 0 else total

/-- Row storage format used by multiverso tables (lightlda.cpp lines 212-213). -/
inductive RowFormat where
  | dense : RowFormat
  | sparse : RowFormat
deriving DecidableEq

/-- Load factor applied to a word's term frequency when sizing its sparse
    row (common.h constant; the comment at lightlda.cpp line 218 records
    kLoadFactor = 2). -/
def kLoadFactor : ℕ := 2

/-- Format and capacity chosen for one table row. -/
structure RowSetting where
  fmt : RowFormat
  capacity : ℕ
deriving DecidableEq

/-- Row configuration computed by LightLDA::ConfigTable for a word with
    term frequency tf (lightlda.cpp lines 219-232): dense with capacity
    num_topics when tf * kLoadFactor > num_topics, else sparse with capacity
    tf * kLoadFactor. -/
def configRow (tf num_topics : ℕ) : RowSetting :=
  if tf * kLoadFactor > num_topics then ⟨RowFormat.dense, num_topics⟩
  else ⟨RowFormat.sparse, tf * kLoadFactor⟩

/-- Server and cache row settings installed by LightLDA::ConfigTable for one
    word (lightlda.cpp lines 216-233): both rows get the same setting, and
    only words with tf > 0 are configured. -/
def ConfigTableWord (tf num_topics : ℕ) : Option (RowSetting × RowSetting) :=
  if tf > 0 then some (configRow tf num_topics, configRow tf num_topics)
  else none

/-- Outcome of processing one document in the sampling loop. -/
inductive DocResult where
  | sampled : DocResult
  | fatal : DocResult
deriving DecidableEq

/-- The diagnostic warm-start consistency check run on a document
    (trainer.cpp lines 100-113). A document is a list of (word, topic)
    pairs. With Config::word_init, every token's topic must equal its word
    id; otherwise every later token's topic must equal the first token's
    topic. -/
def checkDoc (word_init : Bool) (doc : List (ℕ × ℕ)) : Bool :=
  if word_init then doc.all (fun p => p.2 == p.1)
  else
    match doc with
    | [] => true
    | p0 :: rest => rest.all (fun p => p.2 == p0.2)

/-- Processing of one document inside the sampling loop (trainer.cpp lines
    96-115): during iteration 0 on slice 0 the diagnostic check runs first
    and a violation is a fatal log halting the run; otherwise the document
    is sampled normally. -/
def processDoc (word_init : Bool) (iter slice : ℕ) (doc : List (ℕ × ℕ)) : DocResult :=
  if iter = 0 ∧ slice = 0 then
    (if checkDoc word_init doc then DocResult.sampled else DocResult.fatal)
  else DocResult.sampled

/-- max_word_id computed by LightLDA::Initialize (lightlda.cpp lines
    122-125): running maximum of the document's word ids, starting from 0. -/
def maxWordId (doc : List (ℕ × ℕ)) : ℕ :=
  doc.foldl (fun m p => max m p.1) 0

/-- Topic assignment performed by LightLDA::Initialize (lightlda.cpp lines
    126-131): when warm_start is false every token of the document receives
    topic max_word_id % num_topics; with warm_start the stored topics are
    kept. -/
def initDocTopics (warm_start : Bool) (K : ℕ) (doc : List (ℕ × ℕ)) : List (ℕ × ℕ) :=
  if warm_start then doc
  else doc.map (fun p => (p.1, maxWordId doc % K))

/-- Count updates issued by LightLDA::Initialize for one document
    (lightlda.cpp lines 132-137): for each token, one +1 to
    kWordTopicTable at (word, topic) and one +1 to kSummaryRow at topic.
    The tables are modelled as count functions. -/
def applyDocToTables (doc : List (ℕ × ℕ)) (wt : ℕ → ℕ → ℕ) (sr : ℕ → ℕ) :
    (ℕ → ℕ → ℕ) × (ℕ → ℕ) :=
  doc.foldl
    (fun tabs p =>
      (fun w t => tabs.1 w t + (if w = p.1 ∧ t = p.2 then 1 else 0),
       fun t => tabs.2 t + (if t = p.2 then 1 else 0)))
    (wt, sr)

/-- Result of AliasTable::Build: the declaration at alias_table.h line 48
    documents an int return meaning success or not. -/
inductive BuildResult where
  | ok : BuildResult
  | capacityError : BuildResult
deriving DecidableEq

/-- Modelled from the spec: the body of AliasTable::Build lives in
    alias_table.cpp, which is not among the sources; only the declaration
    (alias_table.h line 48) is. Per the spec, Build for a word with
    nonzeroCount nonzero topics and reserved index capacity succeeds when
    the count fits the capacity and reports a capacity error through its
    return value otherwise; it never throws (modelled by totality). -/
def Build (nonzeroCount capacity : ℕ) : BuildResult :=
  if nonzeroCount ≤ capacity then BuildResult.ok else BuildResult.capacityError

/-- One alias slot: a height (number of filled bins), a total un-normalized
    mass, and the packed bins, each a (bin height, primary topic, alternate
    topic) triple. -/
structure AliasSlot where
  height : ℕ
  mass : ℚ
  bins : List (ℚ × ℕ × ℕ)

/-- Modelled from the spec: the classical alias draw performed inside
    AliasTable::Propose (alias_table.cpp is not among the sources; only the
    declaration at alias_table.h line 55 is). Given a uniformly drawn bin
    index and a uniform threshold, return the bin's primary topic when the
    threshold falls under the bin's stored height, else its alternate
    topic. -/
def aliasDraw (slot : AliasSlot) (bin : ℕ) (th : ℚ) : ℕ :=
  match slot.bins[bin]? with
  | some (h, p, a) => if th < h then p else a
  | none => 0

/-- Modelled from the spec: AliasTable::Propose draws one topic from the
    mixture of the word's sparse slot and the shared dense smoothing slot:
    a uniform value u in the interval from 0 to sparse mass + dense mass
    selects the sparse slot when u < sparse mass and the dense slot
    otherwise; the chosen slot is then sampled by a classical alias draw. -/
def Propose (sp de : AliasSlot) (u : ℚ) (bin : ℕ) (th : ℚ) : ℕ :=
  if u < sp.mass then aliasDraw sp bin th else aliasDraw de bin th

/- ------------------------------------------------------------------ -/
/- Theorems                                                            -/
/- ------------------------------------------------------------------ -/

lemma rrList_eq (e T p : ℕ) :
    rrList e T p = if 0 < T ∧ p < e then p :: rrList e T (p + T) else [] := by
  rw [rrList]
  split <;> simp_all

lemma rrList_nil (e T p : ℕ) (h : ¬(0 < T ∧ p < e)) : rrList e T p = [] := by
  rw [rrList_eq, if_neg h]

lemma rrList_cons (e T p : ℕ) (hT : 0 < T) (hp : p < e) :
    rrList e T p = p :: rrList e T (p + T) := by
  rw [rrList_eq, if_pos ⟨hT, hp⟩]

lemma mem_rrList_aux (T e : ℕ) (hT : 0 < T) :
    ∀ n p x, e - p ≤ n → (x ∈ rrList e T p ↔ p ≤ x ∧ x < e ∧ (x - p) % T = 0) := by
  intro n
  induction n with
  | zero =>
    intro p x h
    rw [rrList_nil e T p (by omega)]
    simp only [List.not_mem_nil, false_iff]
    omega
  | succ n ih =>
    intro p x h
    by_cases hpe : p < e
    · rw [rrList_cons e T p hT hpe]
      simp only [List.mem_cons]
      rw [ih (p + T) x (by omega)]
      constructor
      · rintro (rfl | ⟨h1, h2, h3⟩)
        · exact ⟨le_refl x, hpe, by simp⟩
        · refine ⟨by omega, h2, ?_⟩
          have hx : x - p = (x - (p + T)) + T := by omega
          rw [hx, Nat.add_mod_right]
          exact h3
      · rintro ⟨h1, h2, h3⟩
        rcases Nat.eq_or_lt_of_le h1 with heq | hlt
        · left; exact heq.symm
        · right
          obtain ⟨q, hq⟩ := Nat.dvd_of_mod_eq_zero h3
          rcases q with _ | q'
          · omega
          · rw [Nat.mul_succ] at hq
            have hTq : p + T ≤ x ∧ x - (p + T) = T * q' := by omega
            refine ⟨hTq.1, h2, ?_⟩
            rw [hTq.2]
            exact Nat.mul_mod_right T q'
    · rw [rrList_nil e T p (by omega)]
      simp only [List.not_mem_nil, false_iff]
      omega

lemma mem_rrList (e T p x : ℕ) (hT : 0 < T) :
    x ∈ rrList e T p ↔ p ≤ x ∧ x < e ∧ (x - p) % T = 0 :=
  mem_rrList_aux T e hT (e - p) p x (le_refl _)

/-- Characterization of the round-robin partition: position x is visited by
    thread id (starting point b + id, step T) exactly when x lies in the
    range and x - b leaves remainder id modulo T. -/
lemma mem_rrList_thread (e T b id x : ℕ) (hT : 0 < T) (hid : id < T) :
    x ∈ rrList e T (b + id) ↔ b ≤ x ∧ x < e ∧ (x - b) % T = id := by
  rw [mem_rrList e T (b + id) x hT]
  constructor
  · rintro ⟨h1, h2, h3⟩
    refine ⟨by omega, h2, ?_⟩
    obtain ⟨q, hq⟩ := Nat.dvd_of_mod_eq_zero h3
    have hx : x - b = id + (x - (b + id)) := by omega
    rw [hx, hq, Nat.add_mul_mod_self_left]
    exact Nat.mod_eq_of_lt hid
  · rintro ⟨h1, h2, h3⟩
    have hd : x - b = T * ((x - b) / T) + id := by
      conv_lhs => rw [← Nat.div_add_mod (x - b) T]
      rw [h3]
    have hmod : (T * ((x - b) / T)) % T = 0 := Nat.mul_mod_right _ _
    generalize hG : T * ((x - b) / T) = y at hd hmod
    refine ⟨by omega, h2, ?_⟩
    have hx2 : x - (b + id) = y := by omega
    rw [hx2]
    exact hmod

/-- Claim C2: for every thread count T >= 1, the round-robin partitions used
    in Trainer::TrainIteration (thread id visits positions b + id,
    b + id + T, ... strictly below e) are pairwise disjoint, every visited
    position lies in the range, and every position of the range is visited
    by exactly one thread; the document partition (starting points id over
    the range below numDocs) satisfies the same. -/
theorem round_robin_partition (T : ℕ) (hT : 0 < T) :
    (∀ b e x id₁ id₂, id₁ < T → id₂ < T → id₁ ≠ id₂ →
      x ∈ rrList e T (b + id₁) → x ∉ rrList e T (b + id₂)) ∧
    (∀ b e x id, id < T → x ∈ rrList e T (b + id) → b ≤ x ∧ x < e) ∧
    (∀ b e x, b ≤ x → x < e → ∃! id, id < T ∧ x ∈ rrList e T (b + id)) ∧
    (∀ n x id, id < T → x ∈ rrList n T id → x < n) ∧
    (∀ n x, x < n → ∃! id, id < T ∧ x ∈ rrList n T id) := by
  have hchar := fun e b id x (hid : id < T) => mem_rrList_thread e T b id x hT hid
  have disj : ∀ b e x id₁ id₂, id₁ < T → id₂ < T → id₁ ≠ id₂ →
      x ∈ rrList e T (b + id₁) → x ∉ rrList e T (b + id₂) := by
    intro b e x id₁ id₂ h1 h2 hne hm hm2
    rw [hchar e b id₁ x h1] at hm
    rw [hchar e b id₂ x h2] at hm2
    omega
  have range : ∀ b e x id, id < T → x ∈ rrList e T (b + id) → b ≤ x ∧ x < e := by
    intro b e x id hid hm
    rw [hchar e b id x hid] at hm
    exact ⟨hm.1, hm.2.1⟩
  have cover : ∀ b e x, b ≤ x → x < e → ∃! id, id < T ∧ x ∈ rrList e T (b + id) := by
    intro b e x hbx hxe
    refine ⟨(x - b) % T, ⟨Nat.mod_lt _ hT, ?_⟩, ?_⟩
    · rw [hchar e b ((x - b) % T) x (Nat.mod_lt _ hT)]
      exact ⟨hbx, hxe, rfl⟩
    · rintro id ⟨hid, hm⟩
      rw [hchar e b id x hid] at hm
      exact hm.2.2.symm
  refine ⟨disj, range, cover, ?_, ?_⟩
  · intro n x id hid hm
    have := range 0 n x id hid (by simpa using hm)
    exact this.2
  · intro n x hx
    have := cover 0 n x (Nat.zero_le x) hx
    simpa using this

/-- Witness for claim C2 at thread count 2. -/
theorem round_robin_partition_witness :
    0 < 2 ∧
    ((∀ b e x id₁ id₂, id₁ < 2 → id₂ < 2 → id₁ ≠ id₂ →
      x ∈ rrList e 2 (b + id₁) → x ∉ rrList e 2 (b + id₂)) ∧
    (∀ b e x id, id < 2 → x ∈ rrList e 2 (b + id) → b ≤ x ∧ x < e) ∧
    (∀ b e x, b ≤ x → x < e → ∃! id, id < 2 ∧ x ∈ rrList e 2 (b + id)) ∧
    (∀ n x id, id < 2 → x ∈ rrList n 2 id → x < n) ∧
    (∀ n x, x < n → ∃! id, id < 2 ∧ x ∈ rrList n 2 id)) :=
  ⟨by decide, round_robin_partition 2 (by decide)⟩

lemma mem_ite_nil {α : Type} {c : Prop} [Decidable c] {l : List α} {a : α} :
    a ∈ (if c then l else []) ↔ c ∧ a ∈ l := by
  split <;> simp_all

lemma rrList_mem_lt (e T : ℕ) :
    ∀ n p x, e - p ≤ n → x ∈ rrList e T p → x < e := by
  intro n
  induction n with
  | zero =>
    intro p x h hm
    rw [rrList_nil e T p (by omega)] at hm
    simp at hm
  | succ n ih =>
    intro p x h hm
    by_cases hc : 0 < T ∧ p < e
    · rw [rrList_cons e T p hc.1 hc.2] at hm
      rcases List.mem_cons.mp hm with rfl | hm'
      · exact hc.2
      · exact ih (p + T) x (by omega) hm'
    · rw [rrList_nil e T p hc] at hm
      simp at hm

lemma mem_preSeg (id : ℕ) (e : Event) :
    e ∈ preSeg id ↔ id = 0 ∧ e = Event.initIndex := by
  unfold preSeg
  split <;> simp_all

lemma mem_midSeg (cfg : TrainConfig) (id T : ℕ) (words : List ℤ) (e : Event) :
    e ∈ midSeg cfg id T words ↔
      (∃ p ∈ rrList words.length T id, e = Event.build (words.getD p 0)) ∨
      (id = 0 ∧ e = Event.build (-1)) ∨
      (id = 0 ∧ 0 ≤ cfg.asymmetric_alpha ∧ e = Event.initAsymAlpha) := by
  unfold midSeg
  simp only [List.mem_append, List.mem_map, mem_ite_nil, List.mem_singleton]
  constructor
  · rintro ((⟨p, hp, rfl⟩ | ⟨h1, rfl⟩) | ⟨⟨h1, h2⟩, rfl⟩)
    · exact Or.inl ⟨p, hp, rfl⟩
    · exact Or.inr (Or.inl ⟨h1, rfl⟩)
    · exact Or.inr (Or.inr ⟨h1, h2, rfl⟩)
  · rintro (⟨p, hp, rfl⟩ | ⟨h1, rfl⟩ | ⟨h1, h2, rfl⟩)
    · exact Or.inl (Or.inl ⟨p, hp, rfl⟩)
    · exact Or.inl (Or.inr ⟨h1, rfl⟩)
    · exact Or.inr ⟨⟨h1, h2⟩, rfl⟩

lemma mem_evalTrace (block slice : ℕ) (e : Event) :
    e ∈ evalTrace block slice ↔ e = Event.enterEval ∨ e = Event.barrier := by
  unfold evalTrace
  by_cases h1 : slice = 0 <;> by_cases h2 : block = 0 <;> simp [h1, h2]

lemma mem_postSeg (cfg : TrainConfig) (id T block slice iter numDocs : ℕ) (e : Event) :
    e ∈ postSeg cfg id T block slice iter numDocs ↔
      (∃ d ∈ rrList numDocs T id, e = Event.sampleDoc d) ∨
      (iter % 2 = 0 ∧ (e = Event.enterEval ∨ e = Event.barrier)) ∨
      (iter = cfg.num_iterations - 1 ∧ e = Event.clear) := by
  unfold postSeg
  simp only [List.mem_append, List.mem_map, mem_ite_nil, List.mem_singleton,
    mem_evalTrace]
  constructor
  · rintro ((⟨d, hd, rfl⟩ | ⟨h1, h2⟩) | ⟨h1, rfl⟩)
    · exact Or.inl ⟨d, hd, rfl⟩
    · exact Or.inr (Or.inl ⟨h1, h2⟩)
    · exact Or.inr (Or.inr ⟨h1, rfl⟩)
  · rintro (⟨d, hd, rfl⟩ | ⟨h1, h2⟩ | ⟨h1, rfl⟩)
    · exact Or.inl (Or.inl ⟨d, hd, rfl⟩)
    · exact Or.inl (Or.inr ⟨h1, h2⟩)
    · exact Or.inr ⟨h1, rfl⟩

lemma mem_trace (cfg : TrainConfig) (id T block slice iter : ℕ)
    (words : List ℤ) (numDocs : ℕ) (e : Event) :
    e ∈ trainIterTrace cfg id T block slice iter words numDocs ↔
      e ∈ preSeg id ∨ e = Event.barrier ∨ e ∈ midSeg cfg id T words ∨
      e ∈ postSeg cfg id T block slice iter numDocs := by
  unfold trainIterTrace
  simp only [List.mem_append, List.mem_singleton]
  tauto

/-- Claim C3: for every word with tf > 0, ConfigTable sets the word's server
    and cache rows to the same setting; that setting is dense with capacity
    num_topics exactly when tf * kLoadFactor > num_topics (strict), and
    otherwise sparse with capacity tf * kLoadFactor; in particular at
    equality tf * kLoadFactor = num_topics the row is sparse with capacity
    num_topics. -/
theorem configTable_boundary (tf K : ℕ) (htf : 0 < tf) :
    (ConfigTableWord tf K = some (configRow tf K, configRow tf K)) ∧
    (((configRow tf K).fmt = RowFormat.dense ∧ (configRow tf K).capacity = K) ↔
      tf * kLoadFactor > K) ∧
    (tf * kLoadFactor ≤ K →
      (configRow tf K).fmt = RowFormat.sparse ∧
      (configRow tf K).capacity = tf * kLoadFactor) ∧
    (tf * kLoadFactor = K →
      (configRow tf K).fmt = RowFormat.sparse ∧ (configRow tf K).capacity = K) := by
  refine ⟨by simp [ConfigTableWord, htf], ?_, ?_, ?_⟩
  · by_cases hgt : tf * kLoadFactor > K
    · simp [configRow, hgt]
    · simp [configRow, hgt]
  · intro hle
    simp [configRow, not_lt.mpr hle]
  · intro heq
    simp [configRow, heq]

/-- Witness for claim C3 at the boundary tf = 5, num_topics = 10 (with
    kLoadFactor = 2 equality holds and the row is sparse with capacity 10). -/
theorem configTable_boundary_witness :
    0 < 5 ∧
    ((ConfigTableWord 5 10 = some (configRow 5 10, configRow 5 10)) ∧
    (((configRow 5 10).fmt = RowFormat.dense ∧ (configRow 5 10).capacity = 10) ↔
      5 * kLoadFactor > 10) ∧
    (5 * kLoadFactor ≤ 10 →
      (configRow 5 10).fmt = RowFormat.sparse ∧
      (configRow 5 10).capacity = 5 * kLoadFactor) ∧
    (5 * kLoadFactor = 10 →
      (configRow 5 10).fmt = RowFormat.sparse ∧ (configRow 5 10).capacity = 10)) :=
  ⟨by decide, configTable_boundary 5 10 (by decide)⟩

/-- Claim C6: the evaluation phase is entered in TrainIteration exactly when
    the iteration index is even (iter % 2 = 0), and skipped on every odd
    iteration. -/
theorem evaluation_every_other_iteration (cfg : TrainConfig)
    (id T block slice iter : ℕ) (words : List ℤ) (numDocs : ℕ) :
    ((Event.enterEval ∈ trainIterTrace cfg id T block slice iter words numDocs) ↔
      iter % 2 = 0) ∧
    (iter % 2 = 0 ↔ Even iter) := by
  constructor
  · rw [mem_trace]
    simp [mem_preSeg, mem_midSeg, mem_postSeg]
  · exact Nat.even_iff.symm

lemma checkDoc_true_iff (doc : List (ℕ × ℕ)) :
    checkDoc true doc = true ↔ ∀ p ∈ doc, p.2 = p.1 := by
  simp [checkDoc, List.all_eq_true]

lemma checkDoc_false_iff (p0 : ℕ × ℕ) (rest : List (ℕ × ℕ)) :
    checkDoc false (p0 :: rest) = true ↔ ∀ p ∈ rest, p.2 = p0.2 := by
  simp [checkDoc, List.all_eq_true]

/-- Claim C7: during iteration 0 on slice 0, processing a document runs the
    diagnostic warm-start check and halts fatally exactly when the expected
    invariant fails: with word_init, some token's topic differs from its
    word id; without word_init, some token's topic differs from the first
    token's topic. Documents satisfying the invariant are sampled
    normally. -/
theorem warm_start_diagnostic (word_init : Bool) (iter slice : ℕ)
    (doc : List (ℕ × ℕ)) (h0 : iter = 0) (h1 : slice = 0) :
    (word_init = true →
      ((processDoc word_init iter slice doc = DocResult.sampled ↔
          ∀ p ∈ doc, p.2 = p.1) ∧
       (processDoc word_init iter slice doc = DocResult.fatal ↔
          ∃ p ∈ doc, p.2 ≠ p.1))) ∧
    (word_init = false → ∀ p0 rest, doc = p0 :: rest →
      ((processDoc word_init iter slice doc = DocResult.sampled ↔
          ∀ p ∈ doc, p.2 = p0.2) ∧
       (processDoc word_init iter slice doc = DocResult.fatal ↔
          ∃ p ∈ rest, p.2 ≠ p0.2))) := by
  subst h0 h1
  constructor
  · rintro rfl
    by_cases hcd : checkDoc true doc = true
    · have hall := (checkDoc_true_iff doc).mp hcd
      have hpd : processDoc true 0 0 doc = DocResult.sampled := by
        simp [processDoc, hcd]
      rw [hpd]
      constructor
      · exact ⟨fun _ => hall, fun _ => rfl⟩
      · constructor
        · intro h
          exact absurd h (by simp)
        · rintro ⟨p, hp, hne⟩
          exact absurd (hall p hp) hne
    · have hnall : ¬ ∀ p ∈ doc, p.2 = p.1 :=
        fun hall => hcd ((checkDoc_true_iff doc).mpr hall)
      push_neg at hnall
      obtain ⟨p, hp, hne⟩ := hnall
      have hpd : processDoc true 0 0 doc = DocResult.fatal := by
        simp [processDoc, hcd]
      rw [hpd]
      constructor
      · constructor
        · intro h
          exact absurd h (by simp)
        · intro hall
          exact absurd (hall p hp) hne
      · exact ⟨fun _ => ⟨p, hp, hne⟩, fun _ => rfl⟩
  · rintro rfl p0 rest rfl
    by_cases hcd : checkDoc false (p0 :: rest) = true
    · have hall := (checkDoc_false_iff p0 rest).mp hcd
      have hpd : processDoc false 0 0 (p0 :: rest) = DocResult.sampled := by
        simp [processDoc, hcd]
      rw [hpd]
      constructor
      · constructor
        · intro _ p hp
          rcases List.mem_cons.mp hp with rfl | hp'
          · rfl
          · exact hall p hp'
        · intro _
          rfl
      · constructor
        · intro h
          exact absurd h (by simp)
        · rintro ⟨p, hp, hne⟩
          exact absurd (hall p hp) hne
    · have hnall : ¬ ∀ p ∈ rest, p.2 = p0.2 :=
        fun hall => hcd ((checkDoc_false_iff p0 rest).mpr hall)
      push_neg at hnall
      obtain ⟨p, hp, hne⟩ := hnall
      have hpd : processDoc false 0 0 (p0 :: rest) = DocResult.fatal := by
        simp [processDoc, hcd]
      rw [hpd]
      constructor
      · constructor
        · intro h
          exact absurd h (by simp)
        · intro hall
          exact absurd (hall p (List.mem_cons_of_mem p0 hp)) hne
      · exact ⟨fun _ => ⟨p, hp, hne⟩, fun _ => rfl⟩

/-- Witness for claim C7: iteration 0, slice 0, the two-token document
    with both topics equal to the word ids. -/
theorem warm_start_diagnostic_witness :
    (0 = 0) ∧ (0 = 0) ∧
    ((true = true →
      ((processDoc true 0 0 ([(3, 3), (4, 4)] : List (ℕ × ℕ)) = DocResult.sampled ↔
          ∀ p ∈ ([(3, 3), (4, 4)] : List (ℕ × ℕ)), p.2 = p.1) ∧
       (processDoc true 0 0 ([(3, 3), (4, 4)] : List (ℕ × ℕ)) = DocResult.fatal ↔
          ∃ p ∈ ([(3, 3), (4, 4)] : List (ℕ × ℕ)), p.2 ≠ p.1))) ∧
    (true = false → ∀ p0 rest, ([(3, 3), (4, 4)] : List (ℕ × ℕ)) = p0 :: rest →
      ((processDoc true 0 0 ([(3, 3), (4, 4)] : List (ℕ × ℕ)) = DocResult.sampled ↔
          ∀ p ∈ ([(3, 3), (4, 4)] : List (ℕ × ℕ)), p.2 = p0.2) ∧
       (processDoc true 0 0 ([(3, 3), (4, 4)] : List (ℕ × ℕ)) = DocResult.fatal ↔
          ∃ p ∈ rest, p.2 ≠ p0.2)))) :=
  ⟨rfl, rfl, warm_start_diagnostic true 0 0 ([(3, 3), (4, 4)] : List (ℕ × ℕ)) rfl rfl⟩

/-- Claim C8 (modelled from the spec, alias_table.cpp not among the
    sources): Build with word >= 0 succeeds exactly when the word's
    nonzero-topic count is at most the reserved capacity, succeeds at exact
    equality, and reports a capacity error through its return value when the
    count exceeds the capacity; as a total function it never throws. -/
theorem build_capacity_boundary (n c : ℕ) :
    (Build n c = BuildResult.ok ↔ n ≤ c) ∧
    (n = c → Build n c = BuildResult.ok) ∧
    (c < n → Build n c = BuildResult.capacityError) ∧
    (Build n c = BuildResult.ok ∨ Build n c = BuildResult.capacityError) := by
  unfold Build
  by_cases h : n ≤ c
  · simp [h]
  · simp [h]
    omega

/-- Witness for claim C8 at the exact-capacity boundary n = c = 7. -/
theorem build_capacity_boundary_witness :
    (Build 7 7 = BuildResult.ok ↔ 7 ≤ 7) ∧
    (7 = 7 → Build 7 7 = BuildResult.ok) ∧
    (7 < 7 → Build 7 7 = BuildResult.capacityError) ∧
    (Build 7 7 = BuildResult.ok ∨ Build 7 7 = BuildResult.capacityError) :=
  build_capacity_boundary 7 7

/-- Claim C9 (modelled from the spec, alias_table.cpp not among the
    sources): Propose draws from the mixture of the word's sparse slot and
    the shared dense slot: the sparse slot is sampled exactly when the
    uniform value is below the sparse mass, the dense slot otherwise, and
    the per-slot sample is a classical alias draw returning the chosen
    bin's primary topic when the threshold falls under the stored bin
    height and its alternate topic otherwise. -/
theorem propose_mixture (sp de : AliasSlot) (u th : ℚ) (bin : ℕ) :
    (u < sp.mass → Propose sp de u bin th = aliasDraw sp bin th) ∧
    (sp.mass ≤ u → Propose sp de u bin th = aliasDraw de bin th) ∧
    (∀ slot : AliasSlot, ∀ h : ℚ, ∀ p a : ℕ, slot.bins[bin]? = some (h, p, a) →
      (th < h → aliasDraw slot bin th = p) ∧
      (h ≤ th → aliasDraw slot bin th = a) ∧
      (aliasDraw slot bin th = p ∨ aliasDraw slot bin th = a)) := by
  refine ⟨?_, ?_, ?_⟩
  · intro h
    simp [Propose, h]
  · intro h
    simp [Propose, not_lt.mpr h]
  · intro slot h p a hb
    refine ⟨?_, ?_, ?_⟩
    · intro hc
      simp [aliasDraw, hb, hc]
    · intro hc
      simp [aliasDraw, hb, not_lt.mpr hc]
    · by_cases hc : th < h
      · exact Or.inl (by simp [aliasDraw, hb, hc])
      · exact Or.inr (by simp [aliasDraw, hb, hc])

/-- Witness for claim C9 at a concrete sparse slot of mass 3 and dense slot
    of mass 2, uniform value 1 (sparse branch). -/
theorem propose_mixture_witness :
    ((1 : ℚ) < (AliasSlot.mk 1 3 [(1, 5, 6)]).mass →
      Propose (AliasSlot.mk 1 3 [(1, 5, 6)]) (AliasSlot.mk 1 2 [(1, 7, 8)]) 1 0 0 =
        aliasDraw (AliasSlot.mk 1 3 [(1, 5, 6)]) 0 0) ∧
    ((AliasSlot.mk 1 3 [(1, 5, 6)]).mass ≤ (1 : ℚ) →
      Propose (AliasSlot.mk 1 3 [(1, 5, 6)]) (AliasSlot.mk 1 2 [(1, 7, 8)]) 1 0 0 =
        aliasDraw (AliasSlot.mk 1 2 [(1, 7, 8)]) 0 0) ∧
    (∀ slot : AliasSlot, ∀ h : ℚ, ∀ p a : ℕ, slot.bins[0]? = some (h, p, a) →
      ((0 : ℚ) < h → aliasDraw slot 0 0 = p) ∧
      (h ≤ (0 : ℚ) → aliasDraw slot 0 0 = a) ∧
      (aliasDraw slot 0 0 = p ∨ aliasDraw slot 0 0 = a)) :=
  propose_mixture (AliasSlot.mk 1 3 [(1, 5, 6)]) (AliasSlot.mk 1 2 [(1, 7, 8)]) 1 0 0

lemma foldl_max_le (l : List ℕ) : ∀ (a : ℕ), (a ≤ l.foldl max a) ∧ ∀ w ∈ l, w ≤ l.foldl max a := by
  induction l with
  | nil => intro a; simp
  | cons x xs ih =>
    intro a
    obtain ⟨h1, h2⟩ := ih (max a x)
    refine ⟨le_trans (le_max_left a x) h1, ?_⟩
    intro w hw
    rcases List.mem_cons.mp hw with rfl | hw'
    · exact le_trans (le_max_right a w) h1
    · exact h2 w hw'

lemma foldl_max_mem (l : List ℕ) : ∀ (a : ℕ), l.foldl max a = a ∨ l.foldl max a ∈ l := by
  induction l with
  | nil => intro a; simp
  | cons x xs ih =>
    intro a
    rcases ih (max a x) with h | h
    · simp only [List.foldl_cons]
      rcases Nat.le_total a x with hax | hxa
      · right
        rw [h, Nat.max_eq_right hax]
        exact List.mem_cons_self x xs
      · left
        rw [h, Nat.max_eq_left hxa]
    · right
      exact List.mem_cons_of_mem x h

lemma maxWordId_words (doc : List (ℕ × ℕ)) :
    maxWordId doc = (doc.map Prod.fst).foldl max 0 := by
  unfold maxWordId
  rw [List.foldl_map]

lemma applyDocToTables_counts (doc : List (ℕ × ℕ)) :
    ∀ (wt : ℕ → ℕ → ℕ) (sr : ℕ → ℕ),
      (∀ w t, (applyDocToTables doc wt sr).1 w t = wt w t + doc.count (w, t)) ∧
      (∀ t, (applyDocToTables doc wt sr).2 t = sr t + (doc.map Prod.snd).count t) := by
  induction doc with
  | nil =>
    intro wt sr
    simp [applyDocToTables]
  | cons p d ih =>
    obtain ⟨pw, pt⟩ := p
    intro wt sr
    have hstep : applyDocToTables ((pw, pt) :: d) wt sr =
        applyDocToTables d
          (fun w t => wt w t + (if w = pw ∧ t = pt then 1 else 0))
          (fun t => sr t + (if t = pt then 1 else 0)) := rfl
    rw [hstep]
    obtain ⟨ih1, ih2⟩ := ih
      (fun w t => wt w t + (if w = pw ∧ t = pt then 1 else 0))
      (fun t => sr t + (if t = pt then 1 else 0))
    constructor
    · intro w t
      rw [ih1 w t, List.count_cons]
      simp only [beq_iff_eq, Prod.mk.injEq]
      by_cases hc : w = pw ∧ t = pt
      · rw [if_pos hc, if_pos ⟨hc.1.symm, hc.2.symm⟩]
        omega
      · rw [if_neg hc, if_neg (fun h => hc ⟨h.1.symm, h.2.symm⟩)]
        omega
    · intro t
      rw [ih2 t, List.map_cons, List.count_cons]
      simp only [beq_iff_eq]
      by_cases hc : t = pt
      · rw [if_pos hc, if_pos hc.symm]
        omega
      · rw [if_neg hc, if_neg (fun h => hc h.symm)]
        omega

/-- Claim C10: with warm_start false, LightLDA::Initialize gives every
    token of a document the topic max-word-id mod num_topics; the result is
    a deterministic function of the document's word list (the rng is never
    consulted: the embedding takes none); maxWordId is the maximum word id
    occurring in a nonempty document; and per token exactly one +1 is
    recorded in the word-topic table at (word, topic) and one in the
    summary row at that topic. -/
theorem initialize_cold_start (K : ℕ) (doc : List (ℕ × ℕ))
    (wt : ℕ → ℕ → ℕ) (sr : ℕ → ℕ) :
    (∀ p ∈ initDocTopics false K doc, p.2 = maxWordId doc % K) ∧
    ((initDocTopics false K doc).map Prod.fst = doc.map Prod.fst) ∧
    (∀ d2 : List (ℕ × ℕ), d2.map Prod.fst = doc.map Prod.fst →
      initDocTopics false K d2 = initDocTopics false K doc) ∧
    (doc ≠ [] → maxWordId doc ∈ doc.map Prod.fst ∧
      ∀ w ∈ doc.map Prod.fst, w ≤ maxWordId doc) ∧
    (∀ w t, (applyDocToTables (initDocTopics false K doc) wt sr).1 w t =
      wt w t + (initDocTopics false K doc).count (w, t)) ∧
    (∀ t, (applyDocToTables (initDocTopics false K doc) wt sr).2 t =
      sr t + ((initDocTopics false K doc).map Prod.snd).count t) := by
  have hshape : ∀ d : List (ℕ × ℕ), initDocTopics false K d =
      (d.map Prod.fst).map (fun w => (w, maxWordId d % K)) := by
    intro d
    unfold initDocTopics
    rw [if_neg (by simp)]
    rw [List.map_map]
    rfl
  refine ⟨?_, ?_, ?_, ?_, ?_, ?_⟩
  · intro p hp
    rw [hshape doc] at hp
    obtain ⟨w, hw, rfl⟩ := List.mem_map.mp hp
    rfl
  · rw [hshape doc, List.map_map]
    simp
  · intro d2 hd2
    rw [hshape d2, hshape doc, hd2, maxWordId_words, maxWordId_words, hd2]
  · intro hne
    have hmem := foldl_max_mem (doc.map Prod.fst) 0
    have hle := (foldl_max_le (doc.map Prod.fst) 0).2
    rw [← maxWordId_words] at hmem hle
    rcases hmem with h0 | hmem
    · obtain ⟨p, hp⟩ := List.exists_mem_of_ne_nil doc hne
      have hple := hle p.1 (List.mem_map_of_mem Prod.fst hp)
      have hp1 : p.1 = maxWordId doc := by omega
      refine ⟨?_, hle⟩
      rw [← hp1]
      exact List.mem_map_of_mem Prod.fst hp
    · exact ⟨hmem, hle⟩
  · exact fun w t => ((applyDocToTables_counts (initDocTopics false K doc)) wt sr).1 w t
  · exact fun t => ((applyDocToTables_counts (initDocTopics false K doc)) wt sr).2 t

/-- Witness for claim C10 on the document [(2, 9), (5, 9)] with 4 topics:
    every token receives topic 5 % 4 = 1. -/
theorem initialize_cold_start_witness :
    (∀ p ∈ initDocTopics false 4 ([(2, 9), (5, 9)] : List (ℕ × ℕ)),
      p.2 = maxWordId ([(2, 9), (5, 9)] : List (ℕ × ℕ)) % 4) ∧
    ((initDocTopics false 4 ([(2, 9), (5, 9)] : List (ℕ × ℕ))).map Prod.fst =
      ([(2, 9), (5, 9)] : List (ℕ × ℕ)).map Prod.fst) ∧
    (∀ d2 : List (ℕ × ℕ),
      d2.map Prod.fst = ([(2, 9), (5, 9)] : List (ℕ × ℕ)).map Prod.fst →
      initDocTopics false 4 d2 =
        initDocTopics false 4 ([(2, 9), (5, 9)] : List (ℕ × ℕ))) ∧
    (([(2, 9), (5, 9)] : List (ℕ × ℕ)) ≠ [] →
      maxWordId ([(2, 9), (5, 9)] : List (ℕ × ℕ)) ∈
        ([(2, 9), (5, 9)] : List (ℕ × ℕ)).map Prod.fst ∧
      ∀ w ∈ ([(2, 9), (5, 9)] : List (ℕ × ℕ)).map Prod.fst,
        w ≤ maxWordId ([(2, 9), (5, 9)] : List (ℕ × ℕ))) ∧
    (∀ w t,
      (applyDocToTables (initDocTopics false 4 ([(2, 9), (5, 9)] : List (ℕ × ℕ)))
        (fun _ _ => 0) (fun _ => 0)).1 w t =
      (fun _ _ => (0 : ℕ)) w t +
        (initDocTopics false 4 ([(2, 9), (5, 9)] : List (ℕ × ℕ))).count (w, t)) ∧
    (∀ t,
      (applyDocToTables (initDocTopics false 4 ([(2, 9), (5, 9)] : List (ℕ × ℕ)))
        (fun _ _ => 0) (fun _ => 0)).2 t =
      (fun _ => (0 : ℕ)) t +
        ((initDocTopics false 4 ([(2, 9), (5, 9)] : List (ℕ × ℕ))).map Prod.snd).count t) :=
  initialize_cold_start 4 ([(2, 9), (5, 9)] : List (ℕ × ℕ)) (fun _ _ => 0) (fun _ => 0)

lemma foldl_add_perm_sum (order : List ℕ) (T : ℕ) (f : ℕ → ℚ)
    (h : order.Perm (List.range T)) :
    (order.map f).foldl (· + ·) 0 = mergedLLH T f := by
  rw [List.sum_eq_foldl.symm]
  exact (h.map f).sum_eq

/-- Claim C5: in Trainer::Evaluate a thread's partial document likelihood is
    nonzero only when slice = 0 and its partial word likelihood only when
    block = 0; merging the partials into the shared accumulator under the
    mutex yields the same total in any arrival order; exactly one thread
    (the one whose barrier Wait() returns true) logs the accumulated total,
    and the accumulator is then reset to zero. -/
theorem evaluate_llh_protocol (slice block T numDocs : ℕ) (words : List ℤ)
    (docLLH : ℕ → ℚ) (wordLLH : ℤ → ℚ) (wait : ℕ → Bool) (w0 : ℕ)
    (hw : ∀ i, wait i = true ↔ i = w0) :
    (∀ id, threadDocLLH slice numDocs id T docLLH ≠ 0 → slice = 0) ∧
    (∀ id, threadWordLLH block words id T wordLLH ≠ 0 → block = 0) ∧
    (∀ order : List ℕ, order.Perm (List.range T) →
      (order.map (fun i => threadDocLLH slice numDocs i T docLLH)).foldl (· + ·) 0 =
        mergedLLH T (fun i => threadDocLLH slice numDocs i T docLLH)) ∧
    (∀ order : List ℕ, order.Perm (List.range T) →
      (order.map (fun i => threadWordLLH block words i T wordLLH)).foldl (· + ·) 0 =
        mergedLLH T (fun i => threadWordLLH block words i T wordLLH)) ∧
    (∀ id total, docLogBy slice wait id total = some total ↔ slice = 0 ∧ id = w0) ∧
    (∀ id total, wordLogBy block wait id total = some total ↔ block = 0 ∧ id = w0) ∧
    (slice = 0 → ∀ total, docLLHFinal slice total = 0) ∧
    (block = 0 → ∀ total, wordLLHFinal block total = 0) := by
  refine ⟨?_, ?_, ?_, ?_, ?_, ?_, ?_, ?_⟩
  · intro id h
    by_contra hs
    exact h (by simp [threadDocLLH, hs])
  · intro id h
    by_contra hb
    exact h (by simp [threadWordLLH, hb])
  · intro order h
    exact foldl_add_perm_sum order T _ h
  · intro order h
    exact foldl_add_perm_sum order T _ h
  · intro id total
    unfold docLogBy
    by_cases hs : slice = 0
    · by_cases hid : wait id = true
      · simp [hs, hid, (hw id).mp hid, (hw w0).mpr rfl]
      · have : ¬ id = w0 := fun he => hid ((hw id).mpr he)
        simp [hs, hid, this]
    · simp [hs]
  · intro id total
    unfold wordLogBy
    by_cases hb : block = 0
    · by_cases hid : wait id = true
      · simp [hb, hid, (hw id).mp hid, (hw w0).mpr rfl]
      · have : ¬ id = w0 := fun he => hid ((hw id).mpr he)
        simp [hb, hid, this]
    · simp [hb]
  · intro hs total
    simp [docLLHFinal, hs]
  · intro hb total
    simp [wordLLHFinal, hb]

/-- Witness for claim C5 at slice 0, block 0, two threads, with the barrier
    electing thread 0. -/
theorem evaluate_llh_protocol_witness :
    (∀ i, (decide (i = 0) : Bool) = true ↔ i = 0) ∧
    ((∀ id, threadDocLLH 0 3 id 2 (fun _ => 1) ≠ 0 → 0 = 0) ∧
    (∀ id, threadWordLLH 0 ([5, 6] : List ℤ) id 2 (fun _ => 1) ≠ 0 → 0 = 0) ∧
    (∀ order : List ℕ, order.Perm (List.range 2) →
      (order.map (fun i => threadDocLLH 0 3 i 2 (fun _ => 1))).foldl (· + ·) 0 =
        mergedLLH 2 (fun i => threadDocLLH 0 3 i 2 (fun _ => 1))) ∧
    (∀ order : List ℕ, order.Perm (List.range 2) →
      (order.map (fun i => threadWordLLH 0 ([5, 6] : List ℤ) i 2 (fun _ => 1))).foldl
          (· + ·) 0 =
        mergedLLH 2 (fun i => threadWordLLH 0 ([5, 6] : List ℤ) i 2 (fun _ => 1))) ∧
    (∀ id total,
      docLogBy 0 (fun i => decide (i = 0)) id total = some total ↔ 0 = 0 ∧ id = 0) ∧
    (∀ id total,
      wordLogBy 0 (fun i => decide (i = 0)) id total = some total ↔ 0 = 0 ∧ id = 0) ∧
    (0 = 0 → ∀ total, docLLHFinal 0 total = 0) ∧
    (0 = 0 → ∀ total, wordLLHFinal 0 total = 0)) :=
  ⟨fun i => by simp,
    evaluate_llh_protocol 0 0 2 3 ([5, 6] : List ℤ) (fun _ => 1) (fun _ => 1)
      (fun i => decide (i = 0)) 0 (fun i => by simp)⟩

lemma getElem?_some_lt {α : Type} (l : List α) (p : ℕ) (e : α)
    (h : l[p]? = some e) : p < l.length := by
  by_contra hp
  rw [List.getElem?_eq_none (by omega)] at h
  cases h

lemma getElem?_some_mem {α : Type} (l : List α) (p : ℕ) (e : α)
    (h : l[p]? = some e) : e ∈ l := by
  obtain ⟨hlt, heq⟩ := List.getElem?_eq_some.mp h
  exact heq ▸ List.getElem_mem hlt

lemma append_getElem?_cases {α : Type} (A B : List α) (p : ℕ) (e : α)
    (h : (A ++ B)[p]? = some e) :
    (p < A.length ∧ A[p]? = some e) ∨
    (A.length ≤ p ∧ B[p - A.length]? = some e) := by
  by_cases hp : p < A.length
  · left
    refine ⟨hp, ?_⟩
    rw [← List.getElem?_append_left hp]
    exact h
  · right
    refine ⟨by omega, ?_⟩
    rw [← List.getElem?_append_right (by omega : A.length ≤ p)]
    exact h

lemma append_pos_left {α : Type} (X Y : List α) (p : ℕ) (e : α)
    (h : (X ++ Y)[p]? = some e) (he : e ∉ Y) : p < X.length := by
  rcases append_getElem?_cases X Y p e h with ⟨h1, _⟩ | ⟨_, h2⟩
  · exact h1
  · exact absurd (getElem?_some_mem _ _ _ h2) he

lemma append_pos_right {α : Type} (X Y : List α) (p : ℕ) (e : α)
    (h : (X ++ Y)[p]? = some e) (he : e ∉ X) : X.length ≤ p := by
  rcases append_getElem?_cases X Y p e h with ⟨_, h2⟩ | ⟨h1, _⟩
  · exact absurd (getElem?_some_mem _ _ _ h2) he
  · exact h1

lemma rnd_append_free (A B : List Event) (hA : Event.barrier ∉ A) (p : ℕ) :
    rnd (A ++ B) p = rnd B (p - A.length) := by
  unfold rnd
  rw [List.take_append_eq_append_take, List.count_append]
  have h0 : (A.take p).count Event.barrier = 0 := by
    have hsub := (List.take_sublist p A).count_le Event.barrier
    rw [List.count_eq_zero.mpr hA] at hsub
    omega
  omega

lemma rnd_cons_barrier (B : List Event) (p : ℕ) :
    rnd (Event.barrier :: B) (p + 1) = rnd B p + 1 := by
  unfold rnd
  rw [List.take_succ_cons, List.count_cons]
  simp

lemma rnd_nil (p : ℕ) : rnd [] p = 0 := by
  simp [rnd]

lemma rnd_zero (t : List Event) : rnd t 0 = 0 := by
  simp [rnd]

/-- An event that occurs before the thread's first barrier has barrier
    round 0. -/
lemma rnd_pre_pos (A R : List Event) (hA : Event.barrier ∉ A) (e : Event)
    (heR : e ∉ R) (p : ℕ) (h : (A ++ R)[p]? = some e) :
    rnd (A ++ R) (p + 1) = 0 := by
  have hlt : p < A.length := append_pos_left A R p e h heR
  rw [rnd_append_free A R hA]
  have hz : p + 1 - A.length = 0 := by omega
  rw [hz, rnd_zero]

/-- An event that occurs between the thread's first and second barrier has
    barrier round 1 right after it. -/
lemma rnd_mid_pos (A B C : List Event) (hA : Event.barrier ∉ A)
    (hB : Event.barrier ∉ B) (e : Event) (heA : e ∉ A)
    (heb : e ≠ Event.barrier) (heC : e ∉ C) (p : ℕ)
    (h : (A ++ Event.barrier :: (B ++ Event.barrier :: C))[p]? = some e) :
    rnd (A ++ Event.barrier :: (B ++ Event.barrier :: C)) (p + 1) = 1 := by
  have hge : A.length ≤ p := append_pos_right A _ p e h heA
  have h2 : (Event.barrier :: (B ++ Event.barrier :: C))[p - A.length]? = some e := by
    rw [← List.getElem?_append_right hge]
    exact h
  rcases hq : p - A.length with _ | q
  · rw [hq] at h2
    simp only [List.getElem?_cons_zero, Option.some.injEq] at h2
    exact absurd h2.symm heb
  · rw [hq] at h2
    simp only [List.getElem?_cons_succ] at h2
    have hqB : q < B.length := append_pos_left B _ q e h2 (by
      intro hmem
      rcases List.mem_cons.mp hmem with heq | hmem'
      · exact heb heq
      · exact heC hmem')
    have hp : p + 1 = A.length + (q + 1 + 1) := by omega
    rw [hp, rnd_append_free A _ hA]
    have hz : A.length + (q + 1 + 1) - A.length = q + 1 + 1 := by omega
    rw [hz, rnd_cons_barrier, rnd_append_free B _ hB]
    have hz2 : q + 1 - B.length = 0 := by omega
    rw [hz2, rnd_zero]

/-- An event that occurs after the thread's second barrier has barrier
    round at least 2. -/
lemma rnd_post_pos (A B C : List Event) (hA : Event.barrier ∉ A)
    (hB : Event.barrier ∉ B) (e : Event) (heA : e ∉ A)
    (heb : e ≠ Event.barrier) (heB : e ∉ B) (p : ℕ)
    (h : (A ++ Event.barrier :: (B ++ Event.barrier :: C))[p]? = some e) :
    2 ≤ rnd (A ++ Event.barrier :: (B ++ Event.barrier :: C)) p := by
  have hge : A.length ≤ p := append_pos_right A _ p e h heA
  have h2 : (Event.barrier :: (B ++ Event.barrier :: C))[p - A.length]? = some e := by
    rw [← List.getElem?_append_right hge]
    exact h
  rcases hq : p - A.length with _ | q
  · rw [hq] at h2
    simp only [List.getElem?_cons_zero, Option.some.injEq] at h2
    exact absurd h2.symm heb
  · rw [hq] at h2
    simp only [List.getElem?_cons_succ] at h2
    have hqB : B.length ≤ q := append_pos_right B _ q e h2 heB
    have h3 : (Event.barrier :: C)[q - B.length]? = some e := by
      rw [← List.getElem?_append_right hqB]
      exact h2
    rcases hq2 : q - B.length with _ | k
    · rw [hq2] at h3
      simp only [List.getElem?_cons_zero, Option.some.injEq] at h3
      exact absurd h3.symm heb
    · have hp : p = A.length + (q + 1) := by omega
      rw [hp, rnd_append_free A _ hA]
      have hz : A.length + (q + 1) - A.length = q + 1 := by omega
      rw [hz, rnd_cons_barrier, rnd_append_free B _ hB]
      have hz2 : q - B.length = k + 1 := hq2
      rw [hz2, rnd_cons_barrier]
      omega

lemma trace_shape (cfg : TrainConfig) (id T block slice iter : ℕ)
    (words : List ℤ) (numDocs : ℕ) :
    trainIterTrace cfg id T block slice iter words numDocs =
      preSeg id ++ Event.barrier ::
        (midSeg cfg id T words ++ Event.barrier ::
          postSeg cfg id T block slice iter numDocs) := by
  unfold trainIterTrace
  simp

lemma barrier_not_mem_preSeg (id : ℕ) : Event.barrier ∉ preSeg id := by
  simp [mem_preSeg]

lemma barrier_not_mem_midSeg (cfg : TrainConfig) (id T : ℕ) (words : List ℤ) :
    Event.barrier ∉ midSeg cfg id T words := by
  simp [mem_midSeg]

/-- Claim C1: the per-slice phase order of Trainer::TrainIteration. Only
    thread 0 installs the alias-table index, and before its first barrier
    wait; every Build call (each sparse slot and the shared dense Build(-1))
    lies strictly between the first and second barrier waits; Build(-1) is
    executed by thread 0 and no other, InitAsymmetricAlpha by thread 0
    exactly when Config::asymmetric_alpha >= 0, both between the barriers;
    every document is sampled strictly after the second barrier wait; hence
    under any barrier-consistent schedule no document on any thread is
    sampled before thread 0 has built the shared slots. -/
theorem trainIteration_phase_order (cfg : TrainConfig)
    (T id block slice iter numDocs : ℕ) (words : List ℤ)
    (hid : id < T) (hwords : ∀ w ∈ words, 0 ≤ w) :
    ((Event.initIndex ∈ trainIterTrace cfg id T block slice iter words numDocs) ↔
      id = 0) ∧
    (∀ p, (trainIterTrace cfg id T block slice iter words numDocs)[p]? =
        some Event.initIndex →
      rnd (trainIterTrace cfg id T block slice iter words numDocs) (p + 1) = 0) ∧
    (∀ w p, (trainIterTrace cfg id T block slice iter words numDocs)[p]? =
        some (Event.build w) →
      rnd (trainIterTrace cfg id T block slice iter words numDocs) (p + 1) = 1) ∧
    ((Event.build (-1) ∈ trainIterTrace cfg id T block slice iter words numDocs) ↔
      id = 0) ∧
    ((Event.initAsymAlpha ∈ trainIterTrace cfg id T block slice iter words numDocs) ↔
      (id = 0 ∧ 0 ≤ cfg.asymmetric_alpha)) ∧
    (∀ p, (trainIterTrace cfg id T block slice iter words numDocs)[p]? =
        some Event.initAsymAlpha →
      rnd (trainIterTrace cfg id T block slice iter words numDocs) (p + 1) = 1) ∧
    (∀ d p, (trainIterTrace cfg id T block slice iter words numDocs)[p]? =
        some (Event.sampleDoc d) →
      2 ≤ rnd (trainIterTrace cfg id T block slice iter words numDocs) p) ∧
    (∀ sched : BarrierSchedule
        (fun i => trainIterTrace cfg i T block slice iter words numDocs) T,
      ∀ j p q d, j < T →
        (trainIterTrace cfg 0 T block slice iter words numDocs)[p]? =
          some (Event.build (-1)) →
        (trainIterTrace cfg j T block slice iter words numDocs)[q]? =
          some (Event.sampleDoc d) →
        sched.time 0 p < sched.time j q) ∧
    (∀ sched : BarrierSchedule
        (fun i => trainIterTrace cfg i T block slice iter words numDocs) T,
      ∀ j p q d, j < T →
        (trainIterTrace cfg 0 T block slice iter words numDocs)[p]? =
          some Event.initAsymAlpha →
        (trainIterTrace cfg j T block slice iter words numDocs)[q]? =
          some (Event.sampleDoc d) →
        sched.time 0 p < sched.time j q) := by
  have hshape := fun i => trace_shape cfg i T block slice iter words numDocs
  have hbarA := barrier_not_mem_preSeg
  have hbarB := fun i => barrier_not_mem_midSeg cfg i T words
  have hinit_rnd : ∀ i p,
      (trainIterTrace cfg i T block slice iter words numDocs)[p]? =
        some Event.initIndex →
      rnd (trainIterTrace cfg i T block slice iter words numDocs) (p + 1) = 0 := by
    intro i p hp
    rw [hshape i] at hp ⊢
    refine rnd_pre_pos _ _ (hbarA i) _ ?_ p hp
    intro hmem
    rcases List.mem_cons.mp hmem with heq | hmem'
    · cases heq
    · rcases List.mem_append.mp hmem' with h1 | h2
      · exact absurd h1 (by simp [mem_midSeg])
      · rcases List.mem_cons.mp h2 with heq | h3
        · cases heq
        · exact absurd h3 (by simp [mem_postSeg])
  have hbuild_rnd : ∀ i w p,
      (trainIterTrace cfg i T block slice iter words numDocs)[p]? =
        some (Event.build w) →
      rnd (trainIterTrace cfg i T block slice iter words numDocs) (p + 1) = 1 := by
    intro i w p hp
    rw [hshape i] at hp ⊢
    exact rnd_mid_pos _ _ _ (hbarA i) (hbarB i) _ (by simp [mem_preSeg])
      (by simp) (by simp [mem_postSeg]) p hp
  have hasym_rnd : ∀ i p,
      (trainIterTrace cfg i T block slice iter words numDocs)[p]? =
        some Event.initAsymAlpha →
      rnd (trainIterTrace cfg i T block slice iter words numDocs) (p + 1) = 1 := by
    intro i p hp
    rw [hshape i] at hp ⊢
    exact rnd_mid_pos _ _ _ (hbarA i) (hbarB i) _ (by simp [mem_preSeg])
      (by simp) (by simp [mem_postSeg]) p hp
  have hsample_rnd : ∀ i d p,
      (trainIterTrace cfg i T block slice iter words numDocs)[p]? =
        some (Event.sampleDoc d) →
      2 ≤ rnd (trainIterTrace cfg i T block slice iter words numDocs) p := by
    intro i d p hp
    rw [hshape i] at hp ⊢
    exact rnd_post_pos _ _ _ (hbarA i) (hbarB i) _ (by simp [mem_preSeg])
      (by simp) (by simp [mem_midSeg]) p hp
  refine ⟨?_, hinit_rnd id, hbuild_rnd id, ?_, ?_, hasym_rnd id, hsample_rnd id,
    ?_, ?_⟩
  · simp [mem_trace, mem_preSeg, mem_midSeg, mem_postSeg]
  · have hno : ∀ p ∈ rrList words.length T id, words.getD p 0 ≠ (-1 : ℤ) := by
      intro p hp
      have hlt : p < words.length :=
        rrList_mem_lt words.length T (words.length - id) id p (le_refl _) hp
      rw [List.getD_eq_getElem words 0 hlt]
      have := hwords words[p] (List.getElem_mem hlt)
      omega
    constructor
    · intro hmem
      rcases (mem_trace cfg id T block slice iter words numDocs _).mp hmem with
        hpre | hbar | hmid | hpost
      · exact absurd hpre (by simp [mem_preSeg])
      · cases hbar
      · rcases (mem_midSeg cfg id T words _).mp hmid with
          ⟨p, hp, heq⟩ | ⟨h0, _⟩ | ⟨_, _, heq⟩
        · simp only [Event.build.injEq] at heq
          exact absurd heq.symm (hno p hp)
        · exact h0
        · cases heq
      · exact absurd hpost (by simp [mem_postSeg])
    · intro h0
      apply (mem_trace cfg id T block slice iter words numDocs _).mpr
      exact Or.inr (Or.inr (Or.inl ((mem_midSeg cfg id T words _).mpr
        (Or.inr (Or.inl ⟨h0, rfl⟩)))))
  · constructor
    · intro hmem
      rcases (mem_trace cfg id T block slice iter words numDocs _).mp hmem with
        hpre | hbar | hmid | hpost
      · exact absurd hpre (by simp [mem_preSeg])
      · cases hbar
      · rcases (mem_midSeg cfg id T words _).mp hmid with
          ⟨p, hp, heq⟩ | ⟨_, heq⟩ | ⟨h0, ha, _⟩
        · cases heq
        · cases heq
        · exact ⟨h0, ha⟩
      · exact absurd hpost (by simp [mem_postSeg])
    · rintro ⟨h0, ha⟩
      apply (mem_trace cfg id T block slice iter words numDocs _).mpr
      exact Or.inr (Or.inr (Or.inl ((mem_midSeg cfg id T words _).mpr
        (Or.inr (Or.inr ⟨h0, ha, rfl⟩)))))
  · intro sched j p q d hj hp hq
    have hp' : p < (trainIterTrace cfg 0 T block slice iter words numDocs).length :=
      getElem?_some_lt _ _ _ hp
    have hq' : q < (trainIterTrace cfg j T block slice iter words numDocs).length :=
      getElem?_some_lt _ _ _ hq
    have h1 := hbuild_rnd 0 (-1) p hp
    have h2 := hsample_rnd j d q hq
    exact sched.sync 0 j p q (by omega) hj hp' hq' (by omega)
  · intro sched j p q d hj hp hq
    have hp' : p < (trainIterTrace cfg 0 T block slice iter words numDocs).length :=
      getElem?_some_lt _ _ _ hp
    have hq' : q < (trainIterTrace cfg j T block slice iter words numDocs).length :=
      getElem?_some_lt _ _ _ hq
    have h1 := hasym_rnd 0 p hp
    have h2 := hsample_rnd j d q hq
    exact sched.sync 0 j p q (by omega) hj hp' hq' (by omega)

/-- Witness for claim C1 with two threads (id 1 of 2), one word, one
    document, asymmetric_alpha = 0 and a single iteration. -/
theorem trainIteration_phase_order_witness :
    1 < 2 ∧ (∀ w ∈ ([3] : List ℤ), 0 ≤ w) ∧
    (((Event.initIndex ∈
        trainIterTrace (TrainConfig.mk 1 0) 1 2 0 0 0 ([3] : List ℤ) 1) ↔ 1 = 0) ∧
    (∀ p, (trainIterTrace (TrainConfig.mk 1 0) 1 2 0 0 0 ([3] : List ℤ) 1)[p]? =
        some Event.initIndex →
      rnd (trainIterTrace (TrainConfig.mk 1 0) 1 2 0 0 0 ([3] : List ℤ) 1) (p + 1) = 0) ∧
    (∀ w p, (trainIterTrace (TrainConfig.mk 1 0) 1 2 0 0 0 ([3] : List ℤ) 1)[p]? =
        some (Event.build w) →
      rnd (trainIterTrace (TrainConfig.mk 1 0) 1 2 0 0 0 ([3] : List ℤ) 1) (p + 1) = 1) ∧
    ((Event.build (-1) ∈
        trainIterTrace (TrainConfig.mk 1 0) 1 2 0 0 0 ([3] : List ℤ) 1) ↔ 1 = 0) ∧
    ((Event.initAsymAlpha ∈
        trainIterTrace (TrainConfig.mk 1 0) 1 2 0 0 0 ([3] : List ℤ) 1) ↔
      (1 = 0 ∧ 0 ≤ (TrainConfig.mk 1 0).asymmetric_alpha)) ∧
    (∀ p, (trainIterTrace (TrainConfig.mk 1 0) 1 2 0 0 0 ([3] : List ℤ) 1)[p]? =
        some Event.initAsymAlpha →
      rnd (trainIterTrace (TrainConfig.mk 1 0) 1 2 0 0 0 ([3] : List ℤ) 1) (p + 1) = 1) ∧
    (∀ d p, (trainIterTrace (TrainConfig.mk 1 0) 1 2 0 0 0 ([3] : List ℤ) 1)[p]? =
        some (Event.sampleDoc d) →
      2 ≤ rnd (trainIterTrace (TrainConfig.mk 1 0) 1 2 0 0 0 ([3] : List ℤ) 1) p) ∧
    (∀ sched : BarrierSchedule
        (fun i => trainIterTrace (TrainConfig.mk 1 0) i 2 0 0 0 ([3] : List ℤ) 1) 2,
      ∀ j p q d, j < 2 →
        (trainIterTrace (TrainConfig.mk 1 0) 0 2 0 0 0 ([3] : List ℤ) 1)[p]? =
          some (Event.build (-1)) →
        (trainIterTrace (TrainConfig.mk 1 0) j 2 0 0 0 ([3] : List ℤ) 1)[q]? =
          some (Event.sampleDoc d) →
        sched.time 0 p < sched.time j q) ∧
    (∀ sched : BarrierSchedule
        (fun i => trainIterTrace (TrainConfig.mk 1 0) i 2 0 0 0 ([3] : List ℤ) 1) 2,
      ∀ j p q d, j < 2 →
        (trainIterTrace (TrainConfig.mk 1 0) 0 2 0 0 0 ([3] : List ℤ) 1)[p]? =
          some Event.initAsymAlpha →
        (trainIterTrace (TrainConfig.mk 1 0) j 2 0 0 0 ([3] : List ℤ) 1)[q]? =
          some (Event.sampleDoc d) →
        sched.time 0 p < sched.time j q)) :=
  ⟨by decide, by decide,
    trainIteration_phase_order (TrainConfig.mk 1 0) 2 1 0 0 0 1 ([3] : List ℤ)
      (by decide) (by decide)⟩

/-- Counterexample to claim C4 as stated: AliasTable::Clear is not invoked
    by thread 0 alone — the call at trainer.cpp line 138 has no thread id
    guard, so on the final iteration thread 1 also invokes Clear (here:
    two threads, one iteration, thread 1's trace contains the Clear call). -/
theorem clear_invoked_by_nonzero_thread :
    Event.clear ∈ trainIterTrace (TrainConfig.mk 1 (-1)) 1 2 0 0 0 ([] : List ℤ) 0 := by
  simp [mem_trace, mem_postSeg]

/-- Claim C4 (amended): AliasTable::Clear is invoked during TrainIteration
    exactly when the iteration index equals Config::num_iterations - 1, by
    every thread (not only thread 0), and on each thread it happens only
    after that thread's own sampling of its documents has completed. -/
theorem clear_final_iteration_every_thread (cfg : TrainConfig)
    (id T block slice iter numDocs : ℕ) (words : List ℤ) :
    ((Event.clear ∈ trainIterTrace cfg id T block slice iter words numDocs) ↔
      iter = cfg.num_iterations - 1) ∧
    (∀ p q d : ℕ, (trainIterTrace cfg id T block slice iter words numDocs)[p]? =
        some (Event.sampleDoc d) →
      (trainIterTrace cfg id T block slice iter words numDocs)[q]? =
        some Event.clear → p < q) := by
  constructor
  · simp [mem_trace, mem_preSeg, mem_midSeg, mem_postSeg]
  · intro p q d hp hq
    have hsplit : trainIterTrace cfg id T block slice iter words numDocs =
        ((preSeg id ++ [Event.barrier] ++ midSeg cfg id T words ++
          [Event.barrier] ++ (rrList numDocs T id).map Event.sampleDoc ++
          (if iter % 2 = 0 then evalTrace block slice else [])) ++
         (if iter = cfg.num_iterations - 1 then [Event.clear] else [])) := by
      unfold trainIterTrace postSeg
      simp [List.append_assoc]
    rw [hsplit] at hp hq
    have h1 := append_pos_left _ _ p _ hp (by simp [mem_ite_nil])
    have h2 := append_pos_right _ _ q _ hq (by
      simp [List.mem_append, mem_preSeg, mem_midSeg, mem_evalTrace, mem_ite_nil,
        List.mem_map])
    omega

/-- Witness for the amended claim C4: two threads, two iterations, final
    iteration index 1, thread 1. -/
theorem clear_final_iteration_every_thread_witness :
    ((Event.clear ∈ trainIterTrace (TrainConfig.mk 2 (-1)) 1 2 0 0 1 ([3] : List ℤ) 1) ↔
      1 = (TrainConfig.mk 2 (-1)).num_iterations - 1) ∧
    (∀ p q d : ℕ, (trainIterTrace (TrainConfig.mk 2 (-1)) 1 2 0 0 1 ([3] : List ℤ) 1)[p]? =
        some (Event.sampleDoc d) →
      (trainIterTrace (TrainConfig.mk 2 (-1)) 1 2 0 0 1 ([3] : List ℤ) 1)[q]? =
        some Event.clear → p < q) :=
  clear_final_iteration_every_thread (TrainConfig.mk 2 (-1)) 1 2 0 0 1 1 ([3] : List ℤ)

end LightLDA
